import Mathlib

/-!
Verification of `modules/cr_cleaner.py`: a tool that scans a directory tree
for text files containing Windows-style CR+LF line endings and optionally
rewrites them in place to Unix-style LF endings.

Shallow embedding conventions:
* raw file bytes are `List Nat` (one `Nat` per byte; CR = 13, LF = 10);
* file names and filesystem paths are `List Char`;
* a Python function that can return `True`, `False` or fall off the end
  (returning `None`) is embedded as `Option Bool`; Python truthiness of
  such a value at a call site is `truthyO`;
* Python's `f.readlines()` on a binary file is `splitLines` (splits after
  every LF byte, keeping terminators; the last line may be unterminated);
* `bytes.replace(b'\x7br\x7dn', ...)`-style replacement, scanning left to
  right, is `replaceCRLF`;
* `print` diagnostics are collected as a `List Msg`;
* an uncaught Python exception is a `Bool` "raised" flag in the result of
  the function it escapes from.
-/

/-- Byte value of carriage return `\r`. -/
def CR : Nat := 13

/-- Byte value of line feed `\n`. -/
def LF : Nat := 10

/-- `f.readlines()` on a binary file: split a byte sequence into lines,
keeping terminators.  A line is a maximal run of bytes ending with an LF
byte or at end of input; every byte of the input is kept. -/
def splitLines : List Nat → List (List Nat)
  | [] => []
  | b :: rest =>
    if b = 10 then [10] :: splitLines rest
    else
      match splitLines rest with
      | [] => [[b]]
      | l :: ls => (b :: l) :: ls

/-- `bytes.replace(CRLF, LF)`: scan left to right and replace every
occurrence of the two-byte sequence `13, 10` with the single byte `10`.
After a replacement the scan resumes after the written byte, exactly as
CPython's `bytes.replace` does. -/
def replaceCRLF : List Nat → List Nat
  | [] => []
  | [b] => [b]
  | b :: c :: rest =>
    if b = 13 ∧ c = 10 then 10 :: replaceCRLF rest
    else b :: replaceCRLF (c :: rest)

/-- `line.endswith(b'CRLF')`: the last two bytes are `13, 10`. -/
def endsCRLF (l : List Nat) : Bool := decide ([13, 10] <:+ l)

/-- The body of `cr_cleaner`'s per-line loop (source lines 111-114): a line
that ends with CR+LF has every occurrence of CR+LF replaced by LF, any
other line is written back unchanged. -/
def transformLine (l : List Nat) : List Nat :=
  if endsCRLF l then replaceCRLF l else l

/-- The content transformation performed by `cr_cleaner` on the bytes of a
file: read all lines, rewrite each with `transformLine`, concatenate; the
trailing `truncate()` makes the final file exactly this byte sequence. -/
def cr_cleaner_content (c : List Nat) : List Nat :=
  ((splitLines c).map transformLine).flatten

/-- Formalisation of the claim-side description "unconditionally replacing
every occurrence of the two-byte sequence CR+LF in the whole content with
LF": the left-to-right global replacement applied to the entire byte
sequence at once, with no line splitting. -/
def globalReplaceCRLF (c : List Nat) : List Nat := replaceCRLF c

/-- Python truthiness of a `True` / `False` / `None` value. -/
def truthyO : Option Bool → Bool
  | none => false
  | some b => b

/-- A diagnostic printed to standard output. -/
inductive Msg where
  | winLine (file : List Char) (idx : Nat) (line : List Nat)
  | cantRead (file : List Char) (err : List Char)
  deriving DecidableEq

/-- A candidate file as the tool sees it: its path, its raw bytes, whether
opening/reading it succeeds, and the text of the OS error raised when it
does not. -/
structure File where
  name : List Char
  content : List Nat
  readable : Bool
  errMsg : List Char
  deriving DecidableEq

/-- Result of `cr_infile_searching`: the Python return value (`none` models
the implicit `return None` of the `except` branch), the number of lines the
loop examined, and the diagnostics printed. -/
structure InspectOut where
  ret : Option Bool
  examined : Nat
  msgs : List Msg
  deriving DecidableEq

/-- The scanning loop of `cr_infile_searching` (source lines 84-90),
started at line index `i`: for each line ending in CR+LF, in verbose mode
record `has_cr`, print a diagnostic and keep scanning; otherwise return
`has_cr = True` at once.  Returns (return value, lines examined,
diagnostics). -/
def scanLines (file : List Char) (verbose : Bool) (i : Nat) :
    List (List Nat) → Bool × Nat × List Msg
  | [] => (false, 0, [])
  | l :: rest =>
    if endsCRLF l then
      if verbose then
        let r := scanLines file verbose (i + 1) rest
        (true, r.2.1 + 1, Msg.winLine file i l :: r.2.2)
      else (true, 1, [])
    else
      let r := scanLines file verbose (i + 1) rest
      (r.1, r.2.1 + 1, r.2.2)

/-- `cr_infile_searching(file_name, verbose)`: open the file in binary
mode and run the scanning loop; any failure to open or read is caught by
the `except` branch, which prints the path with the underlying error and
falls off the function, returning `None`. -/
def cr_infile_searching (f : File) (verbose : Bool) : InspectOut :=
  if f.readable then
    let r := scanLines f.name verbose 0 (splitLines f.content)
    ⟨some r.1, r.2.1, r.2.2⟩
  else
    ⟨none, 0, [Msg.cantRead f.name f.errMsg]⟩

/-- `cr_cleaner(file_name, safe_mode)` acting on the file's bytes, returning
(exception raised?, file bytes after the call).

When `safe_mode` is true the function first evaluates the prompt string
`f'Clear CR from: \x7bf\x7d? [Y / N]'` (source line 105).  The name `f` there is a
local variable of `cr_cleaner` — it is assigned only later, at line 108, by
`with open(file_name, "r+b") as f` — so evaluating the f-string raises
`UnboundLocalError` before `input()` is called and before the file is
opened.  The branch therefore always raises and never reads a response nor
touches the file, which is why this embedding takes no response argument.

When `safe_mode` is false the file is opened read/write, all lines are read,
the position is reset to 0, each line is written back through the per-line
transformation, and `truncate()` cuts the file to exactly the bytes
written, so the final content is `cr_cleaner_content` of the old one. -/
def cr_cleaner (content : List Nat) (safe_mode : Bool) : Bool × List Nat :=
  if safe_mode then (true, content)
  else (false, cr_cleaner_content content)

/-- `cr_finder(init_dir, only_inspect, verbose, safe_mode)` acting on the
list of candidate files produced by the walk, returning (files after the
run, exception propagated?, printed diagnostics).  For each file it runs
`cr_infile_searching`; if the (truthy) result is positive and
`only_inspect` is false it runs `cr_cleaner`; an exception raised by
`cr_cleaner` propagates and aborts the remainder of the run. -/
def cr_finder : List File → Bool → Bool → Bool → List File × Bool × List Msg
  | [], _, _, _ => ([], false, [])
  | f :: rest, only_inspect, verbose, safe_mode =>
    let out := cr_infile_searching f verbose
    if truthyO out.ret && !only_inspect then
      let c := cr_cleaner f.content safe_mode
      if c.1 then ({ f with content := c.2 } :: rest, true, out.msgs)
      else
        let r := cr_finder rest only_inspect verbose safe_mode
        ({ f with content := c.2 } :: r.1, r.2.1, out.msgs ++ r.2.2)
    else
      let r := cr_finder rest only_inspect verbose safe_mode
      (f :: r.1, r.2.1, out.msgs ++ r.2.2)

/-- `IGNORE_FOLDERS` (source lines 33-34). -/
def IGNORE_FOLDERS : List (List Char) :=
  ["site-packages".toList, "node_modules".toList, ".git".toList,
   "venv".toList, ".env".toList, ".vscode".toList, ".idea".toList]

/-- `TARGET_FILES` (source line 32). -/
def TARGET_FILES : List (List Char) := [".py".toList]

/-- `os.path.split(__file__)[1]`: the module's own file name. -/
def APP_FILE_NAME : List Char := "cr_cleaner.py".toList

/-- `is_valid_path(filepath)`: `False` iff some entry of `IGNORE_FOLDERS`
occurs as a substring anywhere in the path. -/
def is_valid_path (filepath : List Char) : Bool :=
  !(IGNORE_FOLDERS.any fun d => decide (d <:+: filepath))

/-- Index of the last `'.'` in a file name, if any. -/
def lastDotIdx : List Char → Option Nat
  | [] => none
  | c :: rest =>
    match lastDotIdx rest with
    | some i => some (i + 1)
    | none => if c = '.' then some 0 else none

/-- `os.path.splitext(filename)[1]` for a bare file name (no separator):
the part from the last dot onwards, except that a name whose characters
before the last dot are all dots (e.g. `.bashrc`, `..py`) has extension
`''`. -/
def splitext_ext (s : List Char) : List Char :=
  match lastDotIdx s with
  | none => []
  | some i => if (s.take i).any (fun c => c ≠ '.') then s.drop i else []

/-- `is_valid(filename)` (source lines 47-59): returns `False` when the
name equals the module's own file name, returns `True` when the extension
is a member of `TARGET_FILES`, and otherwise falls off the end of the
function, returning `None`. -/
def is_valid (filename : List Char) : Option Bool :=
  if filename = APP_FILE_NAME then some false
  else if splitext_ext filename ∈ TARGET_FILES then some true
  else none

mutual
/-- A directory: its immediate subdirectories and its file names. -/
inductive FSTree where
  | node : Forest → List (List Char) → FSTree
/-- A list of named subdirectories. -/
inductive Forest where
  | nil : Forest
  | cons : List Char → FSTree → Forest → Forest
end

mutual
/-- `os.walk(p)` for the directory tree `t` rooted at path `p`: the
top-down list of `(dirpath, filenames)` entries, one per directory of the
tree; nothing is ever pruned. -/
def osWalk : List Char → FSTree → List (List Char × List (List Char))
  | p, .node children files => (p, files) :: osWalkF p children
/-- `osWalk` over a list of subdirectories of the directory at path `p`. -/
def osWalkF : List Char → Forest → List (List Char × List (List Char))
  | _, .nil => []
  | p, .cons n t rest => osWalk (p ++ '/' :: n) t ++ osWalkF p rest
end

mutual
/-- Number of directories in a tree. -/
def dirCount : FSTree → Nat
  | .node children _ => 1 + dirCountF children
/-- Number of directories in a forest. -/
def dirCountF : Forest → Nat
  | .nil => 0
  | .cons _ t rest => dirCount t + dirCountF rest
end

/-- `walker(init_path)` (source lines 62-72): iterate over `os.walk`; for a
directory failing `is_valid_path`, `continue` (yield nothing from it);
otherwise yield `os.path.join(cur_dir, fname)` for every contained file
name whose `is_valid` value is truthy. -/
def walker (init_path : List Char) (t : FSTree) : List (List Char) :=
  (osWalk init_path t).flatMap fun e =>
    if is_valid_path e.1 then
      (e.2.filter fun n => truthyO (is_valid n)).map fun n => e.1 ++ '/' :: n
    else []

/-- Concrete tree used in closed statements: `.git/hooks/a.py`. -/
def exTree : FSTree :=
  .node (.cons ".git".toList
    (.node (.cons "hooks".toList (.node .nil ["a.py".toList]) .nil) [])
    .nil) []

/-- Concrete readable file used in closed statements: `a.py` containing
`b"a\x7br\x7d\x7bn\x7db\x7bn\x7dc"`. -/
def exFile : File :=
  ⟨"a.py".toList, [97, 13, 10, 98, 10, 99], true, "err".toList⟩

/-- Concrete unreadable file used in closed statements. -/
def exBadFile : File :=
  ⟨"locked.py".toList, [97, 13, 10], false, "Permission denied".toList⟩

/-- C9: with `safe_mode` true, `cr_cleaner` raises at the confirmation
prompt (the prompt f-string references the local name `f` before any
assignment to it) before the file is opened, so the call leaves the file's
content unchanged regardless of its CR state. -/
theorem cr_cleaner_safe_mode_raises (c : List Nat) :
    cr_cleaner c true = (true, c) := rfl

/-- C1: evaluation of `cr_cleaner` with `safe_mode` true at a concrete
CR-containing file: contrary to the claim, no confirmation is ever
prompted — the call raises while building the prompt string and returns
with the file unmodified, so no response can lead to a rewrite. -/
theorem cr_cleaner_safe_mode_failing_input :
    cr_cleaner [97, 13, 10] true = (true, [97, 13, 10]) := rfl

/-- C8: with `only_inspect` true, `cr_finder` leaves every file unchanged
and never invokes `cr_cleaner` (so nothing can raise either). -/
theorem cr_finder_inspect_only (files : List File) (v sm : Bool) :
    (cr_finder files true v sm).1 = files
    ∧ (cr_finder files true v sm).2.1 = false := by
  induction files with
  | nil => simp [cr_finder]
  | cons f rest ih => simp [cr_finder, ih.1, ih.2]

/-- C5: for a file that cannot be opened or read, `cr_infile_searching`
catches the failure, returns `None` (falsy, i.e. "no CR found"), and prints
the file path with the underlying cause; `cr_finder` therefore does not
invoke `cr_cleaner` on that file and proceeds to the next candidate, the
file's bytes left as they were. -/
theorem unreadable_file_skipped (f : File) (rest : List File)
    (oi v sm : Bool) (h : f.readable = false) :
    (cr_infile_searching f v).ret = none
    ∧ truthyO (cr_infile_searching f v).ret = false
    ∧ (cr_infile_searching f v).msgs = [Msg.cantRead f.name f.errMsg]
    ∧ cr_finder (f :: rest) oi v sm =
        (f :: (cr_finder rest oi v sm).1, (cr_finder rest oi v sm).2.1,
          Msg.cantRead f.name f.errMsg :: (cr_finder rest oi v sm).2.2) := by
  refine ⟨by simp [cr_infile_searching, h], by simp [cr_infile_searching, h, truthyO],
    by simp [cr_infile_searching, h], ?_⟩
  simp [cr_finder, cr_infile_searching, h, truthyO]

/-- C5 witness: the concrete unreadable file is skipped unmodified while
the following file is still processed. -/
theorem unreadable_file_skipped_witness :
    (cr_infile_searching exBadFile true).ret = none
    ∧ truthyO (cr_infile_searching exBadFile true).ret = false
    ∧ (cr_infile_searching exBadFile true).msgs =
        [Msg.cantRead exBadFile.name exBadFile.errMsg]
    ∧ cr_finder [exBadFile, exFile] false true false =
        (exBadFile :: (cr_finder [exFile] false true false).1,
          (cr_finder [exFile] false true false).2.1,
          Msg.cantRead exBadFile.name exBadFile.errMsg ::
            (cr_finder [exFile] false true false).2.2) :=
  unreadable_file_skipped exBadFile [exFile] false true false (by decide)

/-- C7 counterexample: for a file name whose extension is not in
`TARGET_FILES`, `is_valid` does not return `False` as the claim states — it
falls off the end of the function and returns `None`. -/
theorem is_valid_not_false_on_bad_ext :
    is_valid ("a.txt".toList) ≠ some false
    ∧ is_valid ("a.txt".toList) = none := by decide

/-- C7 amended: `is_valid` returns `False` when the name equals the
module's own file name; returns `True` when, the name differing, the
extension is a member of `TARGET_FILES` (exact, case-sensitive, leading
dot included); and otherwise returns `None`, a falsy value, rather than
`False`. -/
theorem is_valid_spec (fn : List Char) :
    (fn = APP_FILE_NAME → is_valid fn = some false)
    ∧ (fn ≠ APP_FILE_NAME → splitext_ext fn ∈ TARGET_FILES →
        is_valid fn = some true)
    ∧ (fn ≠ APP_FILE_NAME → splitext_ext fn ∉ TARGET_FILES →
        is_valid fn = none) :=
  ⟨fun h => by simp [is_valid, h],
   fun h1 h2 => by simp [is_valid, h1, h2],
   fun h1 h2 => by simp [is_valid, h1, h2]⟩

/-- C7 witness: the three branches of `is_valid` at concrete file names. -/
theorem is_valid_spec_witness :
    is_valid ("cr_cleaner.py".toList) = some false
    ∧ is_valid ("a.py".toList) = some true
    ∧ is_valid ("setup.cfg".toList) = none :=
  ⟨(is_valid_spec _).1 (by decide),
   (is_valid_spec _).2.1 (by decide) (by decide),
   (is_valid_spec _).2.2 (by decide) (by decide)⟩

/-- C2 counterexample: the content `b"a\x7br\x7d\x7br\x7d\x7bn\x7d"` is a single line
terminated by `\x7bn\x7d` (indeed by CR+LF), yet after the rewrite the resulting
content still has a line ending in CR+LF: the guarded replacement turns
`a CR CR LF` into `a CR LF`. -/
theorem rewrite_output_line_still_crlf :
    (∀ p ∈ splitLines [97, 13, 13, 10], p.getLast? = some 10)
    ∧ cr_cleaner_content [97, 13, 13, 10] = [97, 13, 10]
    ∧ (splitLines (cr_cleaner_content [97, 13, 13, 10])).any endsCRLF = true := by
  decide

/-- C6 counterexample: the content transformation is not idempotent on
arbitrary byte content: `a CR CR LF` rewrites to `a CR LF`, which a second
pass rewrites again to `a LF`. -/
theorem rewrite_not_idempotent :
    cr_cleaner_content (cr_cleaner_content [97, 13, 13, 10]) ≠
      cr_cleaner_content [97, 13, 13, 10] := by decide

/-- C4 counterexample: with the tree `r/.git/hooks/a.py`, the directory
`r/.git` fails `is_valid_path`, yet the traversal still descends into and
visits its subdirectory `r/.git/hooks` — `os.walk` is never pruned, the
`continue` only skips yielding files — even though no file is yielded. -/
theorem walker_visits_subdir_of_ignored :
    is_valid_path ("r/.git".toList) = false
    ∧ ("r/.git/hooks".toList) ∈ (osWalk ("r".toList) exTree).map Prod.fst
    ∧ walker ("r".toList) exTree = [] := by decide

theorem endsCRLF_iff (l : List Nat) : endsCRLF l = true ↔ ∃ q, l = q ++ [13, 10] := by
  simp only [endsCRLF, decide_eq_true_eq]
  constructor
  · rintro ⟨t, rfl⟩; exact ⟨t, rfl⟩
  · rintro ⟨q, rfl⟩; exact ⟨q, rfl⟩

theorem splitLines_cons_lf (rest : List Nat) :
    splitLines (10 :: rest) = [10] :: splitLines rest := by
  simp [splitLines]

theorem splitLines_cons_of_nil {b : Nat} {rest : List Nat} (hb : b ≠ 10)
    (h : splitLines rest = []) : splitLines (b :: rest) = [[b]] := by
  simp [splitLines, hb, h]

theorem splitLines_cons_of_cons {b : Nat} {rest p : List Nat}
    {ps : List (List Nat)} (hb : b ≠ 10) (h : splitLines rest = p :: ps) :
    splitLines (b :: rest) = (b :: p) :: ps := by
  simp [splitLines, hb, h]

theorem splitLines_flatten (c : List Nat) : (splitLines c).flatten = c := by
  induction c with
  | nil => rfl
  | cons b rest ih =>
    by_cases hb : b = 10
    · subst hb; simp [splitLines_cons_lf, ih]
    · cases h : splitLines rest with
      | nil =>
        have hr : rest = [] := by simpa [h] using ih
        subst hr
        rw [splitLines_cons_of_nil hb h]
        simp
      | cons l ls =>
        have hflat : (l :: ls).flatten = rest := h ▸ ih
        rw [splitLines_cons_of_cons hb h, List.flatten_cons, List.cons_append,
          ← List.flatten_cons, hflat]

theorem splitLines_ne_nil (c : List Nat) : ∀ l ∈ splitLines c, l ≠ [] := by
  induction c with
  | nil => simp [splitLines]
  | cons b rest ih =>
    intro l hl
    by_cases hb : b = 10
    · subst hb
      rw [splitLines_cons_lf] at hl
      rcases List.mem_cons.mp hl with rfl | hl
      · simp
      · exact ih l hl
    · cases h : splitLines rest with
      | nil =>
        rw [splitLines_cons_of_nil hb h] at hl
        simp only [List.mem_cons, List.not_mem_nil, or_false] at hl
        subst hl; simp
      | cons p ps =>
        rw [splitLines_cons_of_cons hb h] at hl
        rcases List.mem_cons.mp hl with rfl | hl
        · simp
        · exact ih l (h ▸ List.mem_cons_of_mem p hl)

theorem splitLines_inner (c : List Nat) :
    ∀ l ∈ splitLines c, ∀ x ∈ l.dropLast, x ≠ 10 := by
  induction c with
  | nil => simp [splitLines]
  | cons b rest ih =>
    intro l hl
    by_cases hb : b = 10
    · subst hb
      rw [splitLines_cons_lf] at hl
      rcases List.mem_cons.mp hl with rfl | hl
      · simp
      · exact ih l hl
    · cases h : splitLines rest with
      | nil =>
        rw [splitLines_cons_of_nil hb h] at hl
        simp only [List.mem_cons, List.not_mem_nil, or_false] at hl
        subst hl; simp
      | cons p ps =>
        rw [splitLines_cons_of_cons hb h] at hl
        rcases List.mem_cons.mp hl with rfl | hl
        · have hp : p ≠ [] := splitLines_ne_nil rest p (by rw [h]; simp)
          cases p with
          | nil => exact absurd rfl hp
          | cons d p' =>
            intro x hx
            rw [List.dropLast_cons₂] at hx
            rcases List.mem_cons.mp hx with rfl | hx
            · exact hb
            · exact ih (d :: p') (by rw [h]; simp) x hx
        · exact ih l (h ▸ List.mem_cons_of_mem p hl)

theorem splitLines_sep (c : List Nat) :
    ∀ l ∈ (splitLines c).dropLast, l.getLast? = some 10 := by
  induction c with
  | nil => simp [splitLines]
  | cons b rest ih =>
    intro l hl
    by_cases hb : b = 10
    · subst hb
      cases h : splitLines rest with
      | nil => rw [splitLines_cons_lf, h] at hl; simp at hl
      | cons p ps =>
        rw [splitLines_cons_lf, h, List.dropLast_cons₂] at hl
        rcases List.mem_cons.mp hl with rfl | hl
        · rfl
        · exact ih l (by rw [h]; exact hl)
    · cases h : splitLines rest with
      | nil => rw [splitLines_cons_of_nil hb h] at hl; simp at hl
      | cons p ps =>
        cases ps with
        | nil => rw [splitLines_cons_of_cons hb h] at hl; simp at hl
        | cons p2 ps' =>
          rw [splitLines_cons_of_cons hb h, List.dropLast_cons₂] at hl
          rcases List.mem_cons.mp hl with rfl | hl
          · have hp : p ≠ [] := splitLines_ne_nil rest p (by rw [h]; simp)
            cases p with
            | nil => exact absurd rfl hp
            | cons d p' =>
              rw [List.getLast?_cons_cons]
              exact ih (d :: p') (by rw [h, List.dropLast_cons₂]; simp)
          · exact ih l
              (by rw [h, List.dropLast_cons₂]; exact List.mem_cons_of_mem p hl)

theorem replaceCRLF_nil : replaceCRLF [] = [] := rfl

theorem replaceCRLF_single (b : Nat) : replaceCRLF [b] = [b] := rfl

theorem replaceCRLF_crlf (rest : List Nat) :
    replaceCRLF (13 :: 10 :: rest) = 10 :: replaceCRLF rest := by
  simp [replaceCRLF]

theorem replaceCRLF_other (b c : Nat) (rest : List Nat)
    (h : ¬(b = 13 ∧ c = 10)) :
    replaceCRLF (b :: c :: rest) = b :: replaceCRLF (c :: rest) := by
  simp only [replaceCRLF]
  rw [if_neg h]

theorem replaceCRLF_eq_self : ∀ l : List Nat,
    (∀ x ∈ l.dropLast, x ≠ 10) → endsCRLF l = false → replaceCRLF l = l
  | [], _, _ => rfl
  | [_], _, _ => rfl
  | b :: c :: rest, hin, hend => by
    by_cases hbc : b = 13 ∧ c = 10
    · obtain ⟨rfl, rfl⟩ := hbc
      cases rest with
      | nil => exact absurd hend (by decide)
      | cons d rest' =>
        have : (10 : Nat) ≠ 10 := hin 10 (by rw [List.dropLast_cons₂]; simp)
        exact absurd rfl this
    · rw [replaceCRLF_other b c rest hbc]
      congr 1
      apply replaceCRLF_eq_self (c :: rest)
      · intro x hx
        apply hin x
        cases rest with
        | nil => simp at hx
        | cons d r' =>
          rw [List.dropLast_cons₂]
          exact List.mem_cons_of_mem b hx
      · cases hE : endsCRLF (c :: rest) with
        | false => rfl
        | true =>
          obtain ⟨q, hq⟩ := (endsCRLF_iff _).mp hE
          have hBig : endsCRLF (b :: c :: rest) = true :=
            (endsCRLF_iff _).mpr ⟨b :: q, by rw [List.cons_append, ← hq]⟩
          rw [hBig] at hend
          cases hend

theorem replaceCRLF_concat : ∀ q : List Nat,
    (∀ x ∈ q, x ≠ 10) → replaceCRLF (q ++ [13, 10]) = q ++ [10]
  | [], _ => by simp [replaceCRLF_crlf, replaceCRLF_nil]
  | [b], _ => by
    have hb13 : ¬(b = 13 ∧ (13 : Nat) = 10) := by simp
    simp only [List.cons_append, List.nil_append]
    rw [replaceCRLF_other b 13 [10] hb13, replaceCRLF_crlf]
    simp [replaceCRLF_nil]
  | b :: c :: q', h => by
    have hc : c ≠ 10 := h c (by simp)
    have hbc : ¬(b = 13 ∧ c = 10) := fun hx => hc hx.2
    have ih := replaceCRLF_concat (c :: q')
      (fun x hx => h x (List.mem_cons_of_mem b hx))
    simp only [List.cons_append] at ih ⊢
    rw [replaceCRLF_other b c (q' ++ [13, 10]) hbc, ih]

theorem replaceCRLF_append : ∀ l r : List Nat, l.getLast? = some 10 →
    replaceCRLF (l ++ r) = replaceCRLF l ++ replaceCRLF r
  | [], _, h => by simp at h
  | [b], r, h => by
    have hb : b = 10 := by simpa using h
    subst hb
    cases r with
    | nil => simp [replaceCRLF_nil]
    | cons d r' =>
      have h10 : ¬((10 : Nat) = 13 ∧ d = 10) := fun hx => by
        exact absurd hx.1 (by decide)
      simp only [List.cons_append, List.nil_append]
      rw [replaceCRLF_other 10 d r' h10]
      simp [replaceCRLF_single]
  | b :: c :: l', r, h => by
    have h' : (c :: l').getLast? = some 10 := by
      rw [List.getLast?_cons_cons] at h; exact h
    by_cases hbc : b = 13 ∧ c = 10
    · obtain ⟨rfl, rfl⟩ := hbc
      cases l' with
      | nil =>
        simp only [List.cons_append, List.nil_append]
        rw [replaceCRLF_crlf r, replaceCRLF_crlf ([]), replaceCRLF_nil]
        simp
      | cons d l'' =>
        have h'' : (d :: l'').getLast? = some 10 := by
          rw [List.getLast?_cons_cons] at h'; exact h'
        have ih := replaceCRLF_append (d :: l'') r h''
        simp only [List.cons_append] at ih ⊢
        rw [replaceCRLF_crlf, replaceCRLF_crlf, ih]
        simp
    · have ih := replaceCRLF_append (c :: l') r h'
      simp only [List.cons_append] at ih ⊢
      rw [replaceCRLF_other b c (l' ++ r) hbc, replaceCRLF_other b c l' hbc, ih]
      simp

theorem replaceCRLF_flatten : ∀ ps : List (List Nat),
    (∀ p ∈ ps.dropLast, p.getLast? = some 10) →
    (ps.map replaceCRLF).flatten = replaceCRLF ps.flatten
  | [], _ => rfl
  | [p], _ => by simp
  | p :: p2 :: ps', h => by
    have hp : p.getLast? = some 10 := h p (by rw [List.dropLast_cons₂]; simp)
    have ih := replaceCRLF_flatten (p2 :: ps')
      (fun x hx => h x (by rw [List.dropLast_cons₂]; exact List.mem_cons_of_mem p hx))
    calc (List.map replaceCRLF (p :: p2 :: ps')).flatten
        = replaceCRLF p ++ (List.map replaceCRLF (p2 :: ps')).flatten := by
          rw [List.map_cons, List.flatten_cons]
      _ = replaceCRLF p ++ replaceCRLF ((p2 :: ps').flatten) := by rw [ih]
      _ = replaceCRLF (p ++ (p2 :: ps').flatten) :=
          (replaceCRLF_append p ((p2 :: ps').flatten) hp).symm
      _ = replaceCRLF ((p :: p2 :: ps').flatten) := by rw [← List.flatten_cons]

theorem replaceCRLF_length : ∀ l : List Nat, (replaceCRLF l).length ≤ l.length
  | [] => Nat.le_refl _
  | [_] => Nat.le_refl _
  | b :: c :: rest => by
    by_cases hbc : b = 13 ∧ c = 10
    · obtain ⟨rfl, rfl⟩ := hbc
      rw [replaceCRLF_crlf]
      have := replaceCRLF_length rest
      simp only [List.length_cons]
      omega
    · rw [replaceCRLF_other b c rest hbc]
      have := replaceCRLF_length (c :: rest)
      simp only [List.length_cons] at this ⊢
      omega

theorem transformLine_of_clean {l : List Nat} (h : endsCRLF l = false) :
    transformLine l = l := by
  simp [transformLine, h]

theorem transformLine_of_crlf (q : List Nat) (hq : ∀ x ∈ q, x ≠ 10) :
    transformLine (q ++ [13, 10]) = q ++ [10] := by
  rw [transformLine, if_pos ((endsCRLF_iff _).mpr ⟨q, rfl⟩)]
  exact replaceCRLF_concat q hq

theorem dropLast_crlf (q : List Nat) : (q ++ [13, 10]).dropLast = q ++ [13] := by
  rw [show q ++ [13, 10] = (q ++ [13]) ++ [10] by simp, List.dropLast_concat]

theorem crlf_line_decomp {c p : List Nat} (hp : p ∈ splitLines c)
    (h : endsCRLF p = true) : ∃ q, p = q ++ [13, 10] ∧ ∀ x ∈ q, x ≠ 10 := by
  obtain ⟨q, rfl⟩ := (endsCRLF_iff p).mp h
  refine ⟨q, rfl, fun x hx => ?_⟩
  exact splitLines_inner c _ hp x
    (by rw [dropLast_crlf]; exact List.mem_append_left _ hx)

theorem transformLine_good (c p : List Nat) (hp : p ∈ splitLines c) :
    transformLine p ≠ []
    ∧ (∀ x ∈ (transformLine p).dropLast, x ≠ 10)
    ∧ (p.getLast? = some 10 → (transformLine p).getLast? = some 10) := by
  cases hE : endsCRLF p with
  | true =>
    obtain ⟨q, hdef, hq⟩ := crlf_line_decomp hp hE
    subst hdef
    rw [transformLine_of_crlf q hq]
    refine ⟨by simp, fun x hx => ?_, fun _ => by rw [List.getLast?_concat]⟩
    rw [List.dropLast_concat] at hx
    exact hq x hx
  | false =>
    rw [transformLine_of_clean hE]
    exact ⟨splitLines_ne_nil c p hp, splitLines_inner c p hp, fun hl => hl⟩

theorem splitLines_piece_append : ∀ p r : List Nat,
    (∀ x ∈ p.dropLast, x ≠ 10) → p.getLast? = some 10 →
    splitLines (p ++ r) = p :: splitLines r
  | [], _, _, hlast => by simp at hlast
  | [b], r, _, hlast => by
    have hb : b = 10 := by simpa using hlast
    subst hb
    simpa using splitLines_cons_lf r
  | b :: d :: p'', r, hinner, hlast => by
    have hb : b ≠ 10 := hinner b (by rw [List.dropLast_cons₂]; simp)
    have h' := splitLines_piece_append (d :: p'') r
      (fun x hx => hinner x (by rw [List.dropLast_cons₂]; exact List.mem_cons_of_mem b hx))
      (by rw [List.getLast?_cons_cons] at hlast; exact hlast)
    simp only [List.cons_append] at h' ⊢
    exact splitLines_cons_of_cons hb h'

theorem splitLines_no_lf : ∀ p : List Nat, p ≠ [] → (∀ x ∈ p, x ≠ 10) →
    splitLines p = [p]
  | [], hp, _ => absurd rfl hp
  | [b], _, h => by
    have hb : b ≠ 10 := h b (by simp)
    exact splitLines_cons_of_nil hb rfl
  | b :: d :: p'', _, h => by
    have hb : b ≠ 10 := h b (by simp)
    have h' := splitLines_no_lf (d :: p'') (by simp)
      (fun x hx => h x (List.mem_cons_of_mem b hx))
    exact splitLines_cons_of_cons hb h'

theorem splitLines_single (p : List Nat) (hp : p ≠ [])
    (hinner : ∀ x ∈ p.dropLast, x ≠ 10) : splitLines p = [p] := by
  cases hl : p.getLast? with
  | none => exact absurd (List.getLast?_eq_none_iff.mp hl) hp
  | some a =>
    by_cases ha : a = 10
    · subst ha
      simpa using splitLines_piece_append p [] hinner hl
    · apply splitLines_no_lf p hp
      intro x hx
      rw [← List.dropLast_append_getLast hp] at hx
      rcases List.mem_append.mp hx with hx | hx
      · exact hinner x hx
      · have hx' : x = p.getLast hp := by simpa using hx
        have hga : p.getLast hp = a := by
          have := List.getLast?_eq_getLast p hp
          rw [hl] at this
          exact (Option.some_injective _ this.symm)
        rw [hx', hga]
        exact ha

theorem splitLines_of_pieces : ∀ ps : List (List Nat),
    (∀ p ∈ ps, p ≠ []) → (∀ p ∈ ps, ∀ x ∈ p.dropLast, x ≠ 10) →
    (∀ p ∈ ps.dropLast, p.getLast? = some 10) →
    splitLines ps.flatten = ps
  | [], _, _, _ => rfl
  | [p], h1, h2, _ => by
    simpa using splitLines_single p (h1 p (by simp)) (h2 p (by simp))
  | p :: p2 :: ps', h1, h2, h3 => by
    have hp10 : p.getLast? = some 10 := h3 p (by rw [List.dropLast_cons₂]; simp)
    have ih := splitLines_of_pieces (p2 :: ps')
      (fun x hx => h1 x (List.mem_cons_of_mem p hx))
      (fun x hx => h2 x (List.mem_cons_of_mem p hx))
      (fun x hx => h3 x (by rw [List.dropLast_cons₂]; exact List.mem_cons_of_mem p hx))
    rw [List.flatten_cons, splitLines_piece_append p _ (h2 p (by simp)) hp10, ih]

theorem splitLines_transform (c : List Nat) :
    splitLines (cr_cleaner_content c) = (splitLines c).map transformLine := by
  rw [cr_cleaner_content]
  apply splitLines_of_pieces
  · intro p hp
    obtain ⟨p0, hp0, rfl⟩ := List.mem_map.mp hp
    exact (transformLine_good c p0 hp0).1
  · intro p hp
    obtain ⟨p0, hp0, rfl⟩ := List.mem_map.mp hp
    exact (transformLine_good c p0 hp0).2.1
  · intro p hp
    rw [← List.map_dropLast] at hp
    obtain ⟨p0, hp0, rfl⟩ := List.mem_map.mp hp
    exact (transformLine_good c p0 (List.mem_of_mem_dropLast hp0)).2.2
      (splitLines_sep c p0 hp0)

theorem output_clean (c : List Nat)
    (H : ∀ p ∈ splitLines c, ¬([13, 13, 10] <:+ p)) :
    ∀ q ∈ splitLines (cr_cleaner_content c), endsCRLF q = false := by
  rw [splitLines_transform]
  intro q hq
  obtain ⟨p, hp, rfl⟩ := List.mem_map.mp hq
  cases hE : endsCRLF p with
  | true =>
    obtain ⟨r, hdef, hr⟩ := crlf_line_decomp hp hE
    subst hdef
    rw [transformLine_of_crlf r hr]
    cases hout : endsCRLF (r ++ [10]) with
    | false => rfl
    | true =>
      obtain ⟨s, hs⟩ := (endsCRLF_iff _).mp hout
      have hrs : r = s ++ [13] := by
        have := congrArg List.dropLast hs
        rw [List.dropLast_concat,
          show s ++ [13, 10] = (s ++ [13]) ++ [10] by simp,
          List.dropLast_concat] at this
        exact this
      exact absurd (show [13, 13, 10] <:+ (r ++ [13, 10]) from
          ⟨s, by rw [hrs]; simp⟩) (H _ hp)
  | false =>
    rw [transformLine_of_clean hE]
    exact hE

theorem clean_fixed (c : List Nat)
    (H : ∀ p ∈ splitLines c, endsCRLF p = false) : cr_cleaner_content c = c := by
  rw [cr_cleaner_content]
  have hmap : (splitLines c).map transformLine = (splitLines c).map id :=
    List.map_congr_left fun p hp => transformLine_of_clean (H p hp)
  rw [hmap, List.map_id, splitLines_flatten]

theorem cr_cleaner_content_eq_replace (c : List Nat) :
    cr_cleaner_content c = replaceCRLF c := by
  rw [cr_cleaner_content]
  have hmap : (splitLines c).map transformLine = (splitLines c).map replaceCRLF :=
    List.map_congr_left fun p hp => by
      cases hE : endsCRLF p with
      | true => simp [transformLine, hE]
      | false =>
        rw [transformLine_of_clean hE,
          replaceCRLF_eq_self p (splitLines_inner c p hp) hE]
  rw [hmap, replaceCRLF_flatten (splitLines c) (splitLines_sep c),
    splitLines_flatten]

/-- C10: the guarded per-line transformation — replacing CR+LF with LF only
in lines that end with CR+LF — equals unconditionally replacing every
occurrence of the two-byte sequence CR+LF in the whole content with LF,
because a CR+LF pair can only occur at the end of a terminator-preserving
line. -/
theorem guarded_replace_eq_global (c : List Nat) :
    cr_cleaner_content c = globalReplaceCRLF c :=
  cr_cleaner_content_eq_replace c

/-- C2 amended: for content whose lines never end with CR CR LF, after the
rewrite no line of the result ends with CR+LF; unconditionally, the output
lines are exactly the per-line transforms of the input lines, every line
that was not CR+LF-terminated is byte-identical to its input form, the
file's final bytes are exactly the bytes written (the `truncate()`), and
the output byte count is at most the input byte count. -/
theorem rewrite_round_trip (c : List Nat)
    (H : ∀ p ∈ splitLines c, ¬([13, 13, 10] <:+ p)) :
    (∀ q ∈ splitLines (cr_cleaner_content c), endsCRLF q = false)
    ∧ splitLines (cr_cleaner_content c) = (splitLines c).map transformLine
    ∧ (∀ p ∈ splitLines c, endsCRLF p = false → transformLine p = p)
    ∧ cr_cleaner c false = (false, cr_cleaner_content c)
    ∧ (cr_cleaner_content c).length ≤ c.length :=
  ⟨output_clean c H, splitLines_transform c,
   fun _ _ hp => transformLine_of_clean hp,
   rfl,
   by rw [cr_cleaner_content_eq_replace]; exact replaceCRLF_length c⟩

/-- C2 witness: the round-trip theorem instantiated at the concrete content
`b"a CRLF b LF"`. -/
theorem rewrite_round_trip_witness :
    (∀ q ∈ splitLines (cr_cleaner_content [97, 13, 10, 98, 10]),
      endsCRLF q = false)
    ∧ splitLines (cr_cleaner_content [97, 13, 10, 98, 10]) =
        (splitLines [97, 13, 10, 98, 10]).map transformLine
    ∧ (∀ p ∈ splitLines [97, 13, 10, 98, 10],
        endsCRLF p = false → transformLine p = p)
    ∧ cr_cleaner [97, 13, 10, 98, 10] false =
        (false, cr_cleaner_content [97, 13, 10, 98, 10])
    ∧ (cr_cleaner_content [97, 13, 10, 98, 10]).length ≤
        [97, 13, 10, 98, 10].length :=
  rewrite_round_trip [97, 13, 10, 98, 10] (by decide)

/-- C6 amended: the content transformation is idempotent on every content
in which no line ends with CR CR LF; in particular a content none of whose
lines end with CR+LF is left byte-identical. -/
theorem rewrite_idempotent (c : List Nat)
    (H : ∀ p ∈ splitLines c, ¬([13, 13, 10] <:+ p)) :
    cr_cleaner_content (cr_cleaner_content c) = cr_cleaner_content c
    ∧ ((∀ p ∈ splitLines c, endsCRLF p = false) → cr_cleaner_content c = c) :=
  ⟨clean_fixed _ (output_clean c H), clean_fixed c⟩

/-- C6 witness: idempotence at `b"a CRLF"` and the no-op on the clean
content `b"b LF"`. -/
theorem rewrite_idempotent_witness :
    cr_cleaner_content (cr_cleaner_content [97, 13, 10]) =
      cr_cleaner_content [97, 13, 10]
    ∧ cr_cleaner_content [98, 10] = [98, 10] :=
  ⟨(rewrite_idempotent [97, 13, 10] (by decide)).1,
   (rewrite_idempotent [98, 10] (by decide)).2 (by decide)⟩

theorem scanLines_nonverbose (name : List Char) (ls : List (List Nat)) :
    ∀ i, scanLines name false i ls =
      (ls.any endsCRLF, min (ls.findIdx endsCRLF + 1) ls.length, []) := by
  induction ls with
  | nil => intro i; simp [scanLines]
  | cons l rest ih =>
    intro i
    cases hE : endsCRLF l with
    | true =>
      simp [scanLines, hE, List.findIdx_cons]
    | false =>
      simp [scanLines, hE, ih (i + 1), List.findIdx_cons]
      omega

theorem scanLines_verbose (name : List Char) (ls : List (List Nat)) :
    ∀ i, scanLines name true i ls =
      (ls.any endsCRLF, ls.length,
        ((ls.enumFrom i).filter fun e => endsCRLF e.2).map
          fun e => Msg.winLine name e.1 e.2) := by
  induction ls with
  | nil => intro i; simp [scanLines]
  | cons l rest ih =>
    intro i
    cases hE : endsCRLF l with
    | true =>
      simp [scanLines, hE, ih (i + 1), List.enumFrom_cons]
    | false =>
      simp [scanLines, hE, ih (i + 1), List.enumFrom_cons]

/-- C3: on a readable file, `cr_infile_searching` with `verbose = False`
returns whether some line ends in CR+LF, examines only up to and including
the first CR+LF-terminated line (short-circuit) and prints nothing,
whereas with `verbose = True` it examines every line, returns the same
answer, and prints one diagnostic — file path, 0-based line index, raw
line bytes — for every CR+LF-terminated line; with no CR+LF line it
returns `False` after examining all lines (the `min` collapses to the
line count exactly when no line matches). -/
theorem cr_infile_searching_spec (f : File) (h : f.readable = true) :
    (cr_infile_searching f false).ret =
      some ((splitLines f.content).any endsCRLF)
    ∧ (cr_infile_searching f false).examined =
        min ((splitLines f.content).findIdx endsCRLF + 1)
          (splitLines f.content).length
    ∧ (cr_infile_searching f false).msgs = []
    ∧ (cr_infile_searching f true).ret =
        some ((splitLines f.content).any endsCRLF)
    ∧ (cr_infile_searching f true).examined = (splitLines f.content).length
    ∧ (cr_infile_searching f true).msgs =
        (((splitLines f.content).enum.filter fun e => endsCRLF e.2).map
          fun e => Msg.winLine f.name e.1 e.2) := by
  simp [cr_infile_searching, h, scanLines_nonverbose, scanLines_verbose,
    List.enum]

/-- C3 witness: the inspection contract instantiated at the concrete
readable file `exFile`. -/
theorem cr_infile_searching_spec_witness :
    (cr_infile_searching exFile false).ret =
      some ((splitLines exFile.content).any endsCRLF)
    ∧ (cr_infile_searching exFile false).examined =
        min ((splitLines exFile.content).findIdx endsCRLF + 1)
          (splitLines exFile.content).length
    ∧ (cr_infile_searching exFile false).msgs = []
    ∧ (cr_infile_searching exFile true).ret =
        some ((splitLines exFile.content).any endsCRLF)
    ∧ (cr_infile_searching exFile true).examined =
        (splitLines exFile.content).length
    ∧ (cr_infile_searching exFile true).msgs =
        (((splitLines exFile.content).enum.filter fun e => endsCRLF e.2).map
          fun e => Msg.winLine exFile.name e.1 e.2) :=
  cr_infile_searching_spec exFile rfl

mutual
theorem osWalk_pathPref : ∀ (p : List Char) (t : FSTree),
    ∀ e ∈ osWalk p t, p <+: e.1
  | p, .node children files => by
    intro e he
    simp only [osWalk, List.mem_cons] at he
    rcases he with rfl | he
    · exact List.prefix_refl _
    · exact osWalkF_pathPref p children e he
theorem osWalkF_pathPref : ∀ (p : List Char) (f : Forest),
    ∀ e ∈ osWalkF p f, p <+: e.1
  | _, .nil => by intro e he; simp [osWalkF] at he
  | p, .cons n t rest => by
    intro e he
    simp only [osWalkF, List.mem_append] at he
    rcases he with he | he
    · exact (List.prefix_append p ('/' :: n)).trans (osWalk_pathPref _ t e he)
    · exact osWalkF_pathPref p rest e he
end

mutual
theorem osWalk_length : ∀ (p : List Char) (t : FSTree),
    (osWalk p t).length = dirCount t
  | p, .node children files => by
    simp only [osWalk, List.length_cons, dirCount]
    rw [osWalkF_length p children]
    omega
theorem osWalkF_length : ∀ (p : List Char) (f : Forest),
    (osWalkF p f).length = dirCountF f
  | _, .nil => rfl
  | p, .cons n t rest => by
    simp only [osWalkF, List.length_append, dirCountF]
    rw [osWalk_length (p ++ '/' :: n) t, osWalkF_length p rest]
end

theorem is_valid_path_anti {p q : List Char} (h : is_valid_path p = false)
    (hpq : p <+: q) : is_valid_path q = false := by
  simp only [is_valid_path, Bool.not_eq_false', List.any_eq_true,
    decide_eq_true_eq] at h ⊢
  obtain ⟨u, rfl⟩ := hpq
  obtain ⟨d, hd, hinf⟩ := h
  obtain ⟨s, t, rfl⟩ := hinf
  exact ⟨d, hd, s, t ++ u, by simp⟩

/-- C4 amended: for every directory (as the root of its subtree) that
fails `is_valid_path`, the walker yields no file from anywhere in that
subtree — every directory of the subtree fails `is_valid_path`
individually, because its path extends the failing one — but the subtree
is NOT skipped by the traversal: `os.walk` is never pruned (the code does
not edit the subdirectory list), so every one of the subtree's directories
is still visited and merely passed over one by one. -/
theorem walker_prunes_no_dirs (p : List Char) (t : FSTree)
    (h : is_valid_path p = false) :
    walker p t = []
    ∧ (∀ q ∈ (osWalk p t).map Prod.fst, is_valid_path q = false)
    ∧ (osWalk p t).length = dirCount t := by
  have hall : ∀ e ∈ osWalk p t, is_valid_path e.1 = false := fun e he =>
    is_valid_path_anti h (osWalk_pathPref p t e he)
  refine ⟨?_, ?_, osWalk_length p t⟩
  · rw [walker]
    apply List.eq_nil_iff_forall_not_mem.mpr
    intro x hx
    obtain ⟨e, he, hxe⟩ := List.mem_flatMap.mp hx
    rw [hall e he] at hxe
    simp at hxe
  · intro q hq
    obtain ⟨e, he, rfl⟩ := List.mem_map.mp hq
    exact hall e he

/-- C4 witness: the pruning-free skip at a concrete ignored directory. -/
theorem walker_prunes_no_dirs_witness :
    walker (".git".toList) (FSTree.node .nil ["a.py".toList]) = []
    ∧ (∀ q ∈ (osWalk (".git".toList)
          (FSTree.node .nil ["a.py".toList])).map Prod.fst,
        is_valid_path q = false)
    ∧ (osWalk (".git".toList) (FSTree.node .nil ["a.py".toList])).length =
        dirCount (FSTree.node .nil ["a.py".toList]) :=
  walker_prunes_no_dirs (".git".toList) (FSTree.node .nil ["a.py".toList])
    (by decide)
